import Mathlib

/-!
# Verification of the CTC decoder of `speech_to_text_ctcgen.py`

Shallow embedding of the CTC beam-search / best-path decoder
(`CTCBeamEntry`, `CTCGenerator.beam_search`, `CTCGenerator.deduplicate`,
`CTCGenerator.best_path_decoding`).

Modelling conventions:
* a vector of per-symbol log-probabilities (a 1-d tensor of size `V`) is a
  function `ℕ → ℝ` together with the vocabulary size `V`;
* accumulated log-probabilities live in `EReal` (`⊥` models `-inf`, the value
  `torch.tensor(-float('inf'))` used by the code);
* `torch.logsumexp` over a stacked list of values is
  `ENNReal.log` of the sum of `EReal.exp` (exactly log of the sum of the
  exponentials, with `exp ⊥ = 0`);
* a Python `IndexError` (reading past the end of the `topk` index tensor)
  is modelled by `Option`: `none` means the call raises;
* Python's `sorted(..., key=..., reverse=True)` is a stable descending sort,
  modelled by `List.insertionSort` with the relation
  "the key of the right element is ≤ the key of the left one" (any two
  stable sorts agree for a total relation);
* a Python `set` of token ids is modelled as a duplicate-free `List ℕ` whose
  order stands for the (unspecified) iteration order of the set.
-/

open scoped ENNReal

/-- `torch.logsumexp` over a stacked list of extended-real values:
log of the sum of the exponentials (`exp ⊥ = 0`). -/
noncomputable def logsumexp (l : List EReal) : EReal :=
  ENNReal.log ((l.map EReal.exp).sum)

@[simp] lemma logsumexp_singleton (x : EReal) : logsumexp [x] = x := by
  simp [logsumexp]

@[simp] lemma logsumexp_pair_bot_right (x : EReal) : logsumexp [x, ⊥] = x := by
  simp [logsumexp]

@[simp] lemma logsumexp_pair_bot_left (x : EReal) : logsumexp [⊥, x] = x := by
  simp [logsumexp]

/-- One candidate hypothesis of the CTC beam search
(class `CTCBeamEntry` of `speech_to_text_ctcgen.py`).
`pref` is the field called `prefix` in the source (that word is a Lean
keyword), the list of already emitted label indices. -/
structure CTCBeamEntry where
  pref : List ℕ
  non_blank_end_logprob : EReal
  blank_end_logprob : EReal

namespace CTCBeamEntry

/-- `CTCBeamEntry.logprob`:
`torch.logsumexp(torch.stack([non_blank_end_logprob, blank_end_logprob]), -1)`. -/
noncomputable def logprob (e : CTCBeamEntry) : EReal :=
  logsumexp [e.non_blank_end_logprob, e.blank_end_logprob]

/-- `CTCBeamEntry.normalized_logprob`:
`logprob / (1 + len(prefix)) ** len_penalty` (real exponentiation). -/
noncomputable def normalized_logprob (e : CTCBeamEntry) (len_penalty : ℝ) : EReal :=
  e.logprob / (((1 + (e.pref.length : ℝ)) ^ len_penalty : ℝ) : EReal)

/-- `CTCBeamEntry.__last_idx`: the last emitted symbol,
or `blank_idx` for the empty prefix. -/
def last_idx (e : CTCBeamEntry) (blank_idx : ℕ) : ℕ :=
  match e.pref.getLast? with
  | some a => a
  | none => blank_idx

@[simp] lemma last_idx_nil (b : ℕ) (x y : EReal) :
    (CTCBeamEntry.mk [] x y).last_idx b = b := rfl

end CTCBeamEntry

@[simp] lemma logprob_coe_bot (p : List ℕ) (r : ℝ) :
    (CTCBeamEntry.mk p (r : EReal) ⊥).logprob = (r : EReal) := by
  simp [CTCBeamEntry.logprob]

@[simp] lemma logprob_bot_coe (p : List ℕ) (r : ℝ) :
    (CTCBeamEntry.mk p ⊥ (r : EReal)).logprob = (r : EReal) := by
  simp [CTCBeamEntry.logprob]

/-- The score used for ranking (`CTCGenerator.__init__`): the raw `logprob`
when `lenpen == 0.0`, the length-normalized log-probability otherwise. -/
noncomputable def penalty_aware_score (len_penalty : ℝ) (e : CTCBeamEntry) : EReal :=
  if len_penalty = 0 then e.logprob else e.normalized_logprob len_penalty

/-! ### `torch.topk`

`torch.topk(lprobs, k)` returns the indices of the `k` largest entries in
descending value order (`sorted=True` is the default).  We model it by
repeated selection of a maximising index from the remaining pool
(ties resolved towards the smaller index). -/

/-- Index of a maximal value of `lprobs` among a pool of indices
(first maximiser on ties), `none` for the empty pool. -/
noncomputable def argmaxList (lprobs : ℕ → ℝ) : List ℕ → Option ℕ
  | [] => none
  | a :: rest =>
    match argmaxList lprobs rest with
    | none => some a
    | some m => if lprobs m > lprobs a then some m else some a

/-- Select the `k` largest indices of the pool, best first. -/
noncomputable def topkAux (lprobs : ℕ → ℝ) : ℕ → List ℕ → List ℕ
  | 0, _ => []
  | k + 1, pool =>
    match argmaxList lprobs pool with
    | none => []
    | some m => m :: topkAux lprobs k (pool.erase m)

/-- `torch.topk(lprobs, k)` over a vocabulary of size `V`: the returned
index tensor, as a list. -/
noncomputable def topk (lprobs : ℕ → ℝ) (V k : ℕ) : List ℕ :=
  topkAux lprobs k (List.range V)

lemma argmaxList_eq_none (lprobs : ℕ → ℝ) :
    ∀ pool : List ℕ, argmaxList lprobs pool = none ↔ pool = [] := by
  intro pool
  cases pool with
  | nil => simp [argmaxList]
  | cons a rest =>
    simp only [argmaxList]
    cases argmaxList lprobs rest with
    | none => simp
    | some m =>
      by_cases h : lprobs m > lprobs a <;> simp [h]

lemma argmaxList_mem (lprobs : ℕ → ℝ) :
    ∀ pool m, argmaxList lprobs pool = some m → m ∈ pool := by
  intro pool
  induction pool with
  | nil => intro m h; simp [argmaxList] at h
  | cons a rest ih =>
    intro m h
    simp only [argmaxList] at h
    cases hrest : argmaxList lprobs rest with
    | none => rw [hrest] at h; simp at h; simp [h]
    | some m' =>
      simp only [hrest] at h
      by_cases hlt : lprobs m' > lprobs a
      · rw [if_pos hlt] at h
        cases h
        exact List.mem_cons_of_mem _ (ih _ hrest)
      · rw [if_neg hlt] at h
        cases h
        exact List.mem_cons_self _ _

lemma topkAux_length (lprobs : ℕ → ℝ) :
    ∀ k pool, (topkAux lprobs k pool).length = min k pool.length := by
  intro k
  induction k with
  | zero => intro pool; simp [topkAux]
  | succ k ih =>
    intro pool
    cases hpool : argmaxList lprobs pool with
    | none =>
      rw [(argmaxList_eq_none lprobs pool).mp hpool]
      simp [topkAux, argmaxList]
    | some m =>
      have hmem : m ∈ pool := argmaxList_mem lprobs pool m hpool
      have hlen : (pool.erase m).length = pool.length - 1 :=
        List.length_erase_of_mem hmem
      have hpos : 1 ≤ pool.length := List.length_pos.mpr (List.ne_nil_of_mem hmem)
      simp only [topkAux, hpool, List.length_cons, ih, hlen]
      omega

lemma topkAux_subset (lprobs : ℕ → ℝ) :
    ∀ k pool x, x ∈ topkAux lprobs k pool → x ∈ pool := by
  intro k
  induction k with
  | zero => intro pool x h; simp [topkAux] at h
  | succ k ih =>
    intro pool x h
    cases hpool : argmaxList lprobs pool with
    | none => rw [topkAux, hpool] at h; simp at h
    | some m =>
      rw [topkAux, hpool] at h
      rcases List.mem_cons.mp h with rfl | h
      · exact argmaxList_mem lprobs pool x hpool
      · exact (List.erase_subset _ _) (ih _ x h)

lemma topkAux_nodup (lprobs : ℕ → ℝ) :
    ∀ k pool, pool.Nodup → (topkAux lprobs k pool).Nodup := by
  intro k
  induction k with
  | zero => intro pool _; simp [topkAux]
  | succ k ih =>
    intro pool hnd
    cases hpool : argmaxList lprobs pool with
    | none => rw [topkAux, hpool]; exact List.nodup_nil
    | some m =>
      rw [topkAux, hpool]
      refine List.nodup_cons.mpr ⟨?_, ih _ (hnd.erase m)⟩
      intro hmem
      have : m ∈ pool.erase m := topkAux_subset lprobs k _ m hmem
      rw [hnd.erase_eq_filter m] at this
      simp at this

lemma topk_length (lprobs : ℕ → ℝ) (V k : ℕ) :
    (topk lprobs V k).length = min k V := by
  simp [topk, topkAux_length]

lemma topk_nodup (lprobs : ℕ → ℝ) (V k : ℕ) : (topk lprobs V k).Nodup :=
  topkAux_nodup lprobs k _ (List.nodup_range V)

/-! ### `CTCBeamEntry.add_next`

The `while` loop scans the fetched `beam_size + 2` top indices, skipping
`blank_idx` and `last_idx`, and appends one new entry per accepted index
until `beam_size + 1` entries (the same-prefix one plus `beam_size` new
ones) have been collected.  Reading past the end of the index tensor
(a Python `IndexError`) is modelled by the result `none`. -/

/-- The successor entry obtained by appending symbol `c` to a prefix `p`
whose total log-probability is `lp`:
`CTCBeamEntry(prefix + [c], logprob + lprobs[c], -inf)`. -/
noncomputable def mk_new (lprobs : ℕ → ℝ) (p : List ℕ) (lp : EReal) (c : ℕ) : CTCBeamEntry :=
  ⟨p ++ [c], lp + ((lprobs c : ℝ) : EReal), ⊥⟩

/-- The `while len(next_beam_entries) <= beam_size` loop of `add_next`:
arguments are the remaining top indices, the remaining
`tokens_to_be_considered` and the accumulated `next_beam_entries`. -/
noncomputable def add_next_loop (lprobs : ℕ → ℝ) (p : List ℕ) (lp : EReal)
    (blank_idx last_i beam_size : ℕ) :
    List ℕ → List ℕ → List CTCBeamEntry → Option (List CTCBeamEntry × List ℕ)
  | [], tbc, acc =>
    if beam_size < acc.length then some (acc, tbc) else none
  | c :: rest, tbc, acc =>
    if beam_size < acc.length then some (acc, tbc)
    else if c = blank_idx ∨ c = last_i then
      add_next_loop lprobs p lp blank_idx last_i beam_size rest tbc acc
    else
      add_next_loop lprobs p lp blank_idx last_i beam_size rest (tbc.erase c)
        (acc ++ [mk_new lprobs p lp c])

/-- `CTCBeamEntry.add_next`: the successor prefixes for the next time step.
`tokens_to_be_considered` is the Python set, as a duplicate-free list;
`none` models the `IndexError` raised when the scan runs past the end of
the `beam_size + 2` fetched top indices. -/
noncomputable def CTCBeamEntry.add_next (e : CTCBeamEntry) (lprobs : ℕ → ℝ) (V : ℕ)
    (tokens_to_be_considered : List ℕ) (blank_idx beam_size : ℕ) :
    Option (List CTCBeamEntry) :=
  let last_i := e.last_idx blank_idx
  let first : CTCBeamEntry :=
    ⟨e.pref, e.non_blank_end_logprob + ((lprobs last_i : ℝ) : EReal),
      e.logprob + ((lprobs blank_idx : ℝ) : EReal)⟩
  let top_indices := topk lprobs V (beam_size + 2)
  match add_next_loop lprobs e.pref e.logprob blank_idx last_i beam_size
      top_indices tokens_to_be_considered [first] with
  | none => none
  | some (acc, leftover) =>
      some (acc ++ leftover.map (mk_new lprobs e.pref e.logprob))

/-- Structure of a successful loop run: the accumulator only grows, every
appended entry extends the prefix by a non-skipped symbol, and the leftover
tokens are a subset of the initial `tokens_to_be_considered`. -/
lemma add_next_loop_shape (lprobs : ℕ → ℝ) (p : List ℕ) (lp : EReal)
    (blank_idx last_i beam_size : ℕ) :
    ∀ tops tbc acc acc' left,
      add_next_loop lprobs p lp blank_idx last_i beam_size tops tbc acc =
        some (acc', left) →
      (∃ extra, acc' = acc ++ extra ∧
        ∀ x ∈ extra, ∃ c, ¬(c = blank_idx ∨ c = last_i) ∧ x = mk_new lprobs p lp c) ∧
      (∀ t ∈ left, t ∈ tbc) := by
  intro tops
  induction tops with
  | nil =>
    intro tbc acc acc' left h
    rw [add_next_loop] at h
    by_cases hlen : beam_size < acc.length
    · rw [if_pos hlen] at h
      cases h
      exact ⟨⟨[], by simp⟩, fun t ht => ht⟩
    · rw [if_neg hlen] at h
      cases h
  | cons c rest ih =>
    intro tbc acc acc' left h
    rw [add_next_loop] at h
    by_cases hlen : beam_size < acc.length
    · rw [if_pos hlen] at h
      cases h
      exact ⟨⟨[], by simp⟩, fun t ht => ht⟩
    · rw [if_neg hlen] at h
      by_cases hskip : c = blank_idx ∨ c = last_i
      · rw [if_pos hskip] at h
        exact ih tbc acc acc' left h
      · rw [if_neg hskip] at h
        obtain ⟨⟨extra, hacc, hextra⟩, hleft⟩ := ih _ _ _ _ h
        refine ⟨⟨mk_new lprobs p lp c :: extra, by simp [hacc], ?_⟩, ?_⟩
        · intro x hx
          rcases List.mem_cons.mp hx with rfl | hx
          · exact ⟨c, hskip, rfl⟩
          · exact hextra x hx
        · intro t ht
          exact (List.erase_subset _ _) (hleft t ht)

/-- Erasing an element from a duplicate-free list and then dropping the
members of `s` is the same as dropping the members of `c :: s`. -/
lemma erase_filter_not_mem {tbc : List ℕ} (hnd : tbc.Nodup) (c : ℕ) (s : List ℕ) :
    (tbc.erase c).filter (fun t => t ∉ s) = tbc.filter (fun t => t ∉ c :: s) := by
  rw [hnd.erase_eq_filter c, List.filter_filter]
  apply List.filter_congr
  intro t _
  by_cases h1 : t = c <;> by_cases h2 : t ∈ s <;> simp [h1, h2]

/-- A successful loop run, characterised exactly: with duplicate-free
top indices and tokens, the loop appends the first
`beam_size + 1 - acc.length` non-skipped top indices in order and removes
them from `tokens_to_be_considered`. -/
lemma add_next_loop_eq (lprobs : ℕ → ℝ) (p : List ℕ) (lp : EReal)
    (blank_idx last_i beam_size : ℕ) :
    ∀ tops tbc acc, tops.Nodup → tbc.Nodup →
      beam_size + 1 - acc.length ≤
        (tops.filter (fun c => ¬(c = blank_idx ∨ c = last_i))).length →
      add_next_loop lprobs p lp blank_idx last_i beam_size tops tbc acc =
        some (acc ++
          (((tops.filter (fun c => ¬(c = blank_idx ∨ c = last_i))).take
              (beam_size + 1 - acc.length)).map (mk_new lprobs p lp)),
          tbc.filter (fun t =>
            t ∉ (tops.filter (fun c => ¬(c = blank_idx ∨ c = last_i))).take
              (beam_size + 1 - acc.length))) := by
  intro tops
  induction tops with
  | nil =>
    intro tbc acc _ _ hneed
    simp only [List.filter_nil, List.length_nil, Nat.le_zero] at hneed
    have hlen : beam_size < acc.length := by omega
    rw [add_next_loop, if_pos hlen, hneed]
    simp
  | cons c rest ih =>
    intro tbc acc hndtops hndtbc hneed
    by_cases hlen : beam_size < acc.length
    · have hzero : beam_size + 1 - acc.length = 0 := by omega
      rw [add_next_loop, if_pos hlen, hzero]
      simp
    · have hpos : 1 ≤ beam_size + 1 - acc.length := by omega
      rw [add_next_loop, if_neg hlen]
      by_cases hskip : c = blank_idx ∨ c = last_i
      · rw [if_pos hskip]
        have hfilter :
            (c :: rest).filter (fun c => ¬(c = blank_idx ∨ c = last_i)) =
              rest.filter (fun c => ¬(c = blank_idx ∨ c = last_i)) := by
          simp only [List.filter_cons]
          rw [if_neg (by simp only [decide_eq_true_eq, not_not]; exact hskip)]
        rw [hfilter] at hneed ⊢
        exact ih tbc acc (List.nodup_cons.mp hndtops).2 hndtbc hneed
      · rw [if_neg hskip]
        have hfilter :
            (c :: rest).filter (fun c => ¬(c = blank_idx ∨ c = last_i)) =
              c :: rest.filter (fun c => ¬(c = blank_idx ∨ c = last_i)) := by
          simp only [List.filter_cons]
          rw [if_pos (by simpa using hskip)]
        rw [hfilter] at hneed ⊢
        rw [List.length_cons] at hneed
        have hih := ih (tbc.erase c) (acc ++ [mk_new lprobs p lp c])
          (List.nodup_cons.mp hndtops).2 (hndtbc.erase c) ?lenok
        case lenok =>
          rw [List.length_append]
          simp only [List.length_cons, List.length_nil]
          omega
        rw [hih]
        have hcount : beam_size + 1 - (acc ++ [mk_new lprobs p lp c]).length =
            beam_size + 1 - acc.length - 1 := by
          rw [List.length_append]; simp only [List.length_cons, List.length_nil]; omega
        rw [hcount]
        have htake : (c :: rest.filter (fun c => ¬(c = blank_idx ∨ c = last_i))).take
            (beam_size + 1 - acc.length) =
            c :: (rest.filter (fun c => ¬(c = blank_idx ∨ c = last_i))).take
              (beam_size + 1 - acc.length - 1) := by
          obtain ⟨n, hn⟩ : ∃ n, beam_size + 1 - acc.length = n + 1 :=
            ⟨beam_size - acc.length, by omega⟩
          rw [hn]
          simp [List.take_succ_cons]
        rw [htake]
        simp only [Option.some.injEq, Prod.mk.injEq]
        constructor
        · simp
        · -- leftover tokens: erasing `c` then filtering equals filtering
          -- against `c :: taken`
          exact erase_filter_not_mem hndtbc c _

/-- The loop succeeds (no out-of-bounds read) as soon as the remaining top
indices contain enough non-skipped symbols. -/
lemma add_next_loop_isSome (lprobs : ℕ → ℝ) (p : List ℕ) (lp : EReal)
    (blank_idx last_i beam_size : ℕ) :
    ∀ tops tbc acc,
      beam_size + 1 - acc.length ≤
        (tops.filter (fun c => ¬(c = blank_idx ∨ c = last_i))).length →
      (add_next_loop lprobs p lp blank_idx last_i beam_size tops tbc acc).isSome := by
  intro tops
  induction tops with
  | nil =>
    intro tbc acc hneed
    simp only [List.filter_nil, List.length_nil, Nat.le_zero] at hneed
    have hlen : beam_size < acc.length := by omega
    rw [add_next_loop, if_pos hlen]
    rfl
  | cons c rest ih =>
    intro tbc acc hneed
    by_cases hlen : beam_size < acc.length
    · rw [add_next_loop, if_pos hlen]; rfl
    · rw [add_next_loop, if_neg hlen]
      by_cases hskip : c = blank_idx ∨ c = last_i
      · rw [if_pos hskip]
        apply ih
        have hfilter :
            (c :: rest).filter (fun c => ¬(c = blank_idx ∨ c = last_i)) =
              rest.filter (fun c => ¬(c = blank_idx ∨ c = last_i)) := by
          simp only [List.filter_cons]
          rw [if_neg (by simp only [decide_eq_true_eq, not_not]; exact hskip)]
        rw [hfilter] at hneed
        exact hneed
      · rw [if_neg hskip]
        apply ih
        have hfilter :
            (c :: rest).filter (fun c => ¬(c = blank_idx ∨ c = last_i)) =
              c :: rest.filter (fun c => ¬(c = blank_idx ∨ c = last_i)) := by
          simp only [List.filter_cons]
          rw [if_pos (by simpa using hskip)]
        rw [hfilter, List.length_cons] at hneed
        rw [List.length_append]
        simp only [List.length_cons, List.length_nil]
        omega

/-- In a duplicate-free list, at most two elements are equal to `a` or `b`. -/
lemma countP_or_le_two {l : List ℕ} (hnd : l.Nodup) (a b : ℕ) :
    l.countP (fun c => c = a ∨ c = b) ≤ 2 := by
  have h1 : ∀ x : ℕ, l.count x ≤ 1 := List.nodup_iff_count_le_one.mp hnd
  have h2 : l.countP (fun c => c = a ∨ c = b) ≤ l.count a + l.count b := by
    induction l with
    | nil => simp
    | cons x xs ih =>
      have hxs : xs.Nodup := (List.nodup_cons.mp hnd).2
      have ih' := ih hxs (List.nodup_iff_count_le_one.mp hxs)
      by_cases hx : x = a ∨ x = b
      · rw [List.countP_cons_of_pos _ _ (by simpa using hx)]
        rcases hx with rfl | rfl
        · rw [List.count_cons_self]
          have : xs.count b ≤ (x :: xs).count b := List.count_le_count_cons b x xs
          omega
        · rw [List.count_cons_self]
          have : xs.count a ≤ (x :: xs).count a := List.count_le_count_cons a x xs
          omega
      · rw [List.countP_cons_of_neg _ _ (by simpa using hx)]
        push_neg at hx
        rw [List.count_cons_of_ne (by simpa using Ne.symm hx.1),
          List.count_cons_of_ne (by simpa using Ne.symm hx.2)] at *
        exact le_trans ih' (le_refl _)
  have := h1 a
  have := h1 b
  omega

/-- Dropping the elements equal to `a` or `b` from a duplicate-free list
removes at most two elements. -/
lemma length_filter_not_or {l : List ℕ} (hnd : l.Nodup) (a b : ℕ) :
    l.length - 2 ≤ (l.filter (fun c => ¬(c = a ∨ c = b))).length := by
  have hsplit : ∀ m : List ℕ,
      (m.filter (fun c => ¬(c = a ∨ c = b))).length +
        m.countP (fun c => c = a ∨ c = b) = m.length := by
    intro m
    induction m with
    | nil => simp
    | cons x xs ih =>
      simp only [List.filter_cons, List.countP_cons, List.length_cons]
      by_cases hx : x = a ∨ x = b
      · rw [if_neg (by simp only [decide_eq_true_eq, not_not]; exact hx),
          if_pos (decide_eq_true hx)]
        omega
      · rw [if_pos (by simpa using hx), if_neg (by simpa using hx)]
        simp only [List.length_cons]
        omega
  have h2 := hsplit l
  have := countP_or_le_two hnd a b
  omega

/-! ### `CTCGenerator.deduplicate`

The Python code groups the entries by `tuple(e.prefix)` in a dict
(insertion-ordered), keeps singleton groups unchanged and merges larger
groups with `torch.logsumexp`. -/

/-- The keys of `dedup_dict` in insertion order: the distinct prefixes of
the list, ordered by first occurrence. -/
def ordered_keys (l : List CTCBeamEntry) : List (List ℕ) :=
  l.foldl (fun ks e => if e.pref ∈ ks then ks else ks ++ [e.pref]) []

/-- One group of `dedup_dict` (all entries sharing prefix `p`): a singleton
group is kept as is, a larger one is merged with `torch.logsumexp`. -/
noncomputable def merge_group (p : List ℕ) (g : List CTCBeamEntry) : CTCBeamEntry :=
  match g with
  | [x] => x
  | g => ⟨p, logsumexp (g.map CTCBeamEntry.non_blank_end_logprob),
          logsumexp (g.map CTCBeamEntry.blank_end_logprob)⟩

/-- `CTCGenerator.deduplicate`: collapse duplicate prefixes, merging the
probabilities with `torch.logsumexp`. -/
noncomputable def deduplicate (l : List CTCBeamEntry) : List CTCBeamEntry :=
  (ordered_keys l).map (fun p => merge_group p (l.filter (fun e => e.pref = p)))

lemma ordered_keys_aux_mem (l : List CTCBeamEntry) :
    ∀ (acc : List (List ℕ)) (p : List ℕ),
      p ∈ l.foldl
        (fun (ks : List (List ℕ)) (e : CTCBeamEntry) =>
          if e.pref ∈ ks then ks else ks ++ [e.pref]) acc ↔
      (p ∈ acc ∨ p ∈ l.map CTCBeamEntry.pref) := by
  induction l with
  | nil => intro acc p; simp
  | cons e rest ih =>
    intro acc p
    simp only [List.foldl_cons, List.map_cons, List.mem_cons]
    by_cases he : e.pref ∈ acc
    · rw [if_pos he, ih]
      constructor
      · rintro (h | h)
        · exact Or.inl h
        · exact Or.inr (Or.inr h)
      · rintro (h | rfl | h)
        · exact Or.inl h
        · exact Or.inl he
        · exact Or.inr h
    · rw [if_neg he, ih]
      simp only [List.mem_append, List.mem_singleton]
      tauto

lemma ordered_keys_mem (l : List CTCBeamEntry) (p : List ℕ) :
    p ∈ ordered_keys l ↔ p ∈ l.map CTCBeamEntry.pref := by
  rw [ordered_keys, ordered_keys_aux_mem]
  simp

lemma ordered_keys_aux_nodup (l : List CTCBeamEntry) :
    ∀ acc : List (List ℕ), acc.Nodup →
      (l.foldl
        (fun (ks : List (List ℕ)) (e : CTCBeamEntry) =>
          if e.pref ∈ ks then ks else ks ++ [e.pref]) acc).Nodup := by
  induction l with
  | nil => intro acc h; simpa
  | cons e rest ih =>
    intro acc hacc
    simp only [List.foldl_cons]
    by_cases he : e.pref ∈ acc
    · rw [if_pos he]; exact ih acc hacc
    · rw [if_neg he]
      apply ih
      simp [List.nodup_append, hacc, he]

lemma ordered_keys_nodup (l : List CTCBeamEntry) : (ordered_keys l).Nodup :=
  ordered_keys_aux_nodup l [] List.nodup_nil

/-- The merged entry of a group carries the group key as its prefix. -/
lemma merge_group_pref_of (p : List ℕ) (g : List CTCBeamEntry)
    (hg : ∀ x ∈ g, x.pref = p) : (merge_group p g).pref = p := by
  match g with
  | [] => simp [merge_group]
  | [x] => simpa [merge_group] using hg x (by simp)
  | x :: y :: g'' => simp [merge_group]

/-- Every output entry of `deduplicate` carries the prefix of its group key. -/
lemma merge_group_pref (l : List CTCBeamEntry) (p : List ℕ) :
    (merge_group p (l.filter (fun e => e.pref = p))).pref = p := by
  apply merge_group_pref_of
  intro x hx
  simpa using (List.mem_filter.mp hx).2

lemma dedup_map_pref (l : List CTCBeamEntry) :
    (deduplicate l).map CTCBeamEntry.pref = ordered_keys l := by
  rw [deduplicate, List.map_map]
  have hcomp : CTCBeamEntry.pref ∘
      (fun p => merge_group p (l.filter (fun e => e.pref = p))) = id := by
    funext p
    exact merge_group_pref l p
  rw [hcomp, List.map_id]

lemma merge_group_nb (p : List ℕ) (g : List CTCBeamEntry) :
    (merge_group p g).non_blank_end_logprob =
      logsumexp (g.map CTCBeamEntry.non_blank_end_logprob) := by
  match g with
  | [] => simp [merge_group]
  | [x] => simp [merge_group]
  | x :: y :: g'' => simp [merge_group]

lemma merge_group_be (p : List ℕ) (g : List CTCBeamEntry) :
    (merge_group p g).blank_end_logprob =
      logsumexp (g.map CTCBeamEntry.blank_end_logprob) := by
  match g with
  | [] => simp [merge_group]
  | [x] => simp [merge_group]
  | x :: y :: g'' => simp [merge_group]

/-- Every entry of `deduplicate l` is the log-sum-exp merge of all entries
of `l` with its prefix. -/
lemma dedup_mem_fields (l : List CTCBeamEntry) (e : CTCBeamEntry)
    (he : e ∈ deduplicate l) :
    e.non_blank_end_logprob =
      logsumexp ((l.filter (fun x => x.pref = e.pref)).map
        CTCBeamEntry.non_blank_end_logprob) ∧
    e.blank_end_logprob =
      logsumexp ((l.filter (fun x => x.pref = e.pref)).map
        CTCBeamEntry.blank_end_logprob) := by
  rw [deduplicate] at he
  obtain ⟨p, hp, rfl⟩ := List.mem_map.mp he
  rw [merge_group_pref l p]
  exact ⟨merge_group_nb p _, merge_group_be p _⟩

/-! ### `CTCGenerator.beam_search`

The per-batch-item search.  Each Python construct is modelled directly:

* the result `dict`s (with `attention`/`alignment` always `None` and
  `positional_scores` always empty) are modelled by `CTCHypo`, keeping the
  two informative fields;
* the `for entry in beam: new_beam.extend(entry.add_next(...))` loop is
  `extend_all` (an `IndexError` inside any `add_next` aborts the call);
* the time-step loop is `run_steps`;
* `sorted(..., key=penalty_aware_score, reverse=True)` is the stable
  descending insertion sort. -/

/-- One element of the returned hypothesis list:
`{'tokens': prefix, 'score': penalty-aware score}`. -/
structure CTCHypo where
  tokens : List ℕ
  score : EReal

/-- The initial beam entry: empty prefix, `non_blank_end_logprob = -inf`,
`blank_end_logprob = 0`. -/
noncomputable def init_entry : CTCBeamEntry := ⟨[], ⊥, (0 : EReal)⟩

/-- `tokens_to_be_considered` for `entry`: the last symbols of the beam
entries whose prefix without its last token equals `entry`'s prefix
(a Python `set`, modelled as a duplicate-free list in beam order). -/
def tokens_to_consider (beam : List CTCBeamEntry) (entry : CTCBeamEntry) : List ℕ :=
  beam.foldl
    (fun (acc : List ℕ) (x : CTCBeamEntry) =>
      if entry.pref = x.pref.dropLast ∧ x.pref ≠ [] then
        match x.pref.getLast? with
        | some t => if t ∈ acc then acc else acc ++ [t]
        | none => acc
      else acc) []

/-- `for entry in beam: new_beam.extend(entry.add_next(...))`. -/
noncomputable def extend_all (lprobs : ℕ → ℝ) (V blank_idx beam_size : ℕ)
    (beam : List CTCBeamEntry) : List CTCBeamEntry → Option (List CTCBeamEntry)
  | [] => some []
  | e :: rest =>
    match e.add_next lprobs V (tokens_to_consider beam e) blank_idx beam_size,
        extend_all lprobs V blank_idx beam_size beam rest with
    | some nexts, some more => some (nexts ++ more)
    | _, _ => none

/-- One time step of the search: extend every entry, deduplicate, sort by
descending penalty-aware score, keep the best `beam_size`. -/
noncomputable def beam_step (blank_idx beam_size V : ℕ) (len_penalty : ℝ)
    (beam : List CTCBeamEntry) (lprobs : ℕ → ℝ) : Option (List CTCBeamEntry) :=
  match extend_all lprobs V blank_idx beam_size beam beam with
  | none => none
  | some new_beam =>
    some ((List.insertionSort
        (fun a b => penalty_aware_score len_penalty b ≤ penalty_aware_score len_penalty a)
        (deduplicate new_beam)).take beam_size)

/-- The `for n in range(ctc_lengths[batch_idx])` loop. -/
noncomputable def run_steps (blank_idx beam_size V : ℕ) (len_penalty : ℝ) :
    List CTCBeamEntry → List (ℕ → ℝ) → Option (List CTCBeamEntry)
  | beam, [] => some beam
  | beam, f :: fs =>
    match beam_step blank_idx beam_size V len_penalty beam f with
    | none => none
    | some beam' => run_steps blank_idx beam_size V len_penalty beam' fs

/-- The search for one batch item, given the valid frames (the first
`ctc_lengths[b]` rows of `prob_ctc[b]`): the final beam rendered as the
hypothesis list. -/
noncomputable def beam_search_item (blank_idx beam_size V : ℕ) (len_penalty : ℝ)
    (frames : List (ℕ → ℝ)) : Option (List CTCHypo) :=
  match run_steps blank_idx beam_size V len_penalty [init_entry] frames with
  | none => none
  | some beam => some (beam.map (fun e => ⟨e.pref, penalty_aware_score len_penalty e⟩))

/-- `CTCGenerator.beam_search`: `prob_ctc b n` is the log-probability row of
batch item `b` at time `n`; item `b` uses its first `ctc_lengths b` frames. -/
noncomputable def beam_search (blank_idx beam_size V : ℕ) (len_penalty : ℝ)
    (prob_ctc : ℕ → ℕ → ℕ → ℝ) (B : ℕ) (ctc_lengths : ℕ → ℕ) :
    Option (List (List CTCHypo)) :=
  (List.range B).foldr
    (fun b acc =>
      match beam_search_item blank_idx beam_size V len_penalty
          ((List.range (ctc_lengths b)).map (prob_ctc b)), acc with
      | some item, some items => some (item :: items)
      | _, _ => none)
    (some [])

/-! ### Structure of `add_next` results -/

/-- The same-prefix successor built first by `add_next`. -/
noncomputable def same_pref_entry (e : CTCBeamEntry) (lprobs : ℕ → ℝ)
    (blank_idx : ℕ) : CTCBeamEntry :=
  ⟨e.pref, e.non_blank_end_logprob + ((lprobs (e.last_idx blank_idx) : ℝ) : EReal),
    e.logprob + ((lprobs blank_idx : ℝ) : EReal)⟩

/-- Any successful `add_next` result is the same-prefix successor followed by
one-symbol extensions, each extension symbol being either non-skipped (in
particular not blank) or drawn from `tokens_to_be_considered`. -/
lemma add_next_shape (e : CTCBeamEntry) (lprobs : ℕ → ℝ) (V : ℕ)
    (tbc : List ℕ) (blank_idx beam_size : ℕ) (res : List CTCBeamEntry)
    (h : e.add_next lprobs V tbc blank_idx beam_size = some res) :
    ∃ extra, res = same_pref_entry e lprobs blank_idx :: extra ∧
      ∀ x ∈ extra, ∃ c, x = mk_new lprobs e.pref e.logprob c ∧
        (¬(c = blank_idx ∨ c = e.last_idx blank_idx) ∨ c ∈ tbc) := by
  simp only [CTCBeamEntry.add_next] at h
  cases hl : add_next_loop lprobs e.pref e.logprob blank_idx (e.last_idx blank_idx)
      beam_size (topk lprobs V (beam_size + 2)) tbc
      [⟨e.pref, e.non_blank_end_logprob + ((lprobs (e.last_idx blank_idx) : ℝ) : EReal),
        e.logprob + ((lprobs blank_idx : ℝ) : EReal)⟩] with
  | none => rw [hl] at h; cases h
  | some pair =>
    obtain ⟨acc, left⟩ := pair
    rw [hl] at h
    simp only [Option.some.injEq] at h
    obtain ⟨⟨extra, hacc, hextra⟩, hleft⟩ :=
      add_next_loop_shape lprobs e.pref e.logprob blank_idx (e.last_idx blank_idx)
        beam_size _ _ _ _ _ hl
    refine ⟨extra ++ left.map (mk_new lprobs e.pref e.logprob), ?_, ?_⟩
    · rw [← h, hacc]
      simp [same_pref_entry]
    · intro x hx
      rcases List.mem_append.mp hx with hx | hx
      · obtain ⟨c, hc, rfl⟩ := hextra x hx
        exact ⟨c, rfl, Or.inl hc⟩
      · obtain ⟨c, hc, rfl⟩ := List.mem_map.mp hx
        exact ⟨c, rfl, Or.inr (hleft c hc)⟩

/-- Exact characterisation of a successful `add_next` call
(`sel` is the list of accepted top symbols). -/
lemma add_next_eq (e : CTCBeamEntry) (lprobs : ℕ → ℝ) (V : ℕ)
    (tbc : List ℕ) (blank_idx beam_size : ℕ) (hnd : tbc.Nodup)
    (hlen : beam_size ≤
      ((topk lprobs V (beam_size + 2)).filter
        (fun c => ¬(c = blank_idx ∨ c = e.last_idx blank_idx))).length) :
    e.add_next lprobs V tbc blank_idx beam_size =
      some (same_pref_entry e lprobs blank_idx ::
        ((((topk lprobs V (beam_size + 2)).filter
            (fun c => ¬(c = blank_idx ∨ c = e.last_idx blank_idx))).take beam_size) ++
          tbc.filter (fun t =>
            t ∉ (((topk lprobs V (beam_size + 2)).filter
              (fun c => ¬(c = blank_idx ∨ c = e.last_idx blank_idx))).take beam_size))).map
          (mk_new lprobs e.pref e.logprob)) := by
  simp only [CTCBeamEntry.add_next]
  have hloop := add_next_loop_eq lprobs e.pref e.logprob blank_idx
    (e.last_idx blank_idx) beam_size (topk lprobs V (beam_size + 2)) tbc
    [⟨e.pref, e.non_blank_end_logprob + ((lprobs (e.last_idx blank_idx) : ℝ) : EReal),
      e.logprob + ((lprobs blank_idx : ℝ) : EReal)⟩]
    (topk_nodup lprobs V (beam_size + 2)) hnd
    (by simpa using hlen)
  rw [hloop]
  simp [same_pref_entry, List.map_append]

/-- `add_next` succeeds whenever the vocabulary holds at least
`beam_size + 2` symbols. -/
lemma add_next_isSome (e : CTCBeamEntry) (lprobs : ℕ → ℝ) (V : ℕ)
    (tbc : List ℕ) (blank_idx beam_size : ℕ) (hV : beam_size + 2 ≤ V) :
    (e.add_next lprobs V tbc blank_idx beam_size).isSome := by
  simp only [CTCBeamEntry.add_next]
  have hlen : (topk lprobs V (beam_size + 2)).length = beam_size + 2 := by
    rw [topk_length]
    omega
  have hfilter := length_filter_not_or (topk_nodup lprobs V (beam_size + 2))
    blank_idx (e.last_idx blank_idx)
  rw [hlen] at hfilter
  have hsome := add_next_loop_isSome lprobs e.pref e.logprob blank_idx
    (e.last_idx blank_idx) beam_size (topk lprobs V (beam_size + 2)) tbc
    [⟨e.pref, e.non_blank_end_logprob + ((lprobs (e.last_idx blank_idx) : ℝ) : EReal),
      e.logprob + ((lprobs blank_idx : ℝ) : EReal)⟩]
    (by simp only [List.length_cons, List.length_nil]; omega)
  cases hl : add_next_loop lprobs e.pref e.logprob blank_idx (e.last_idx blank_idx)
      beam_size (topk lprobs V (beam_size + 2)) tbc
      [⟨e.pref, e.non_blank_end_logprob + ((lprobs (e.last_idx blank_idx) : ℝ) : EReal),
        e.logprob + ((lprobs blank_idx : ℝ) : EReal)⟩] with
  | none => rw [hl] at hsome; cases hsome
  | some pair => obtain ⟨acc, left⟩ := pair; rfl

/-! ### Invariants of the search loop -/

lemma extend_all_mem (lprobs : ℕ → ℝ) (V blank_idx beam_size : ℕ)
    (beam : List CTCBeamEntry) :
    ∀ l nb, extend_all lprobs V blank_idx beam_size beam l = some nb →
      ∀ x ∈ nb, ∃ e ∈ l, ∃ res,
        e.add_next lprobs V (tokens_to_consider beam e) blank_idx beam_size =
          some res ∧ x ∈ res := by
  intro l
  induction l with
  | nil =>
    intro nb h x hx
    rw [extend_all] at h
    cases h
    cases hx
  | cons e rest ih =>
    intro nb h x hx
    rw [extend_all] at h
    cases hadd : e.add_next lprobs V (tokens_to_consider beam e) blank_idx beam_size with
    | none => rw [hadd] at h; cases h
    | some nexts =>
      rw [hadd] at h
      cases hrest : extend_all lprobs V blank_idx beam_size beam rest with
      | none => rw [hrest] at h; cases h
      | some more =>
        rw [hrest] at h
        simp only [Option.some.injEq] at h
        rw [← h] at hx
        rcases List.mem_append.mp hx with hx | hx
        · exact ⟨e, List.mem_cons_self _ _, nexts, hadd, hx⟩
        · obtain ⟨e', he', res, hres, hxres⟩ := ih more hrest x hx
          exact ⟨e', List.mem_cons_of_mem _ he', res, hres, hxres⟩

lemma tokens_to_consider_mem (beam : List CTCBeamEntry) (entry : CTCBeamEntry)
    (c : ℕ) (hc : c ∈ tokens_to_consider beam entry) :
    ∃ x ∈ beam, x.pref.getLast? = some c := by
  rw [tokens_to_consider] at hc
  suffices haux : ∀ (l : List CTCBeamEntry) (acc : List ℕ),
      c ∈ l.foldl
        (fun (acc : List ℕ) (x : CTCBeamEntry) =>
          if entry.pref = x.pref.dropLast ∧ x.pref ≠ [] then
            match x.pref.getLast? with
            | some t => if t ∈ acc then acc else acc ++ [t]
            | none => acc
          else acc) acc →
      c ∈ acc ∨ ∃ x ∈ l, x.pref.getLast? = some c by
    rcases haux beam [] hc with h | h
    · cases h
    · exact h
  intro l
  induction l with
  | nil => intro acc h; exact Or.inl h
  | cons x rest ih =>
    intro acc h
    simp only [List.foldl_cons] at h
    by_cases hcond : entry.pref = x.pref.dropLast ∧ x.pref ≠ []
    · rw [if_pos hcond] at h
      cases hlast : x.pref.getLast? with
      | none =>
        rw [hlast] at h
        rcases ih _ h with h | ⟨y, hy, hyl⟩
        · exact Or.inl h
        · exact Or.inr ⟨y, List.mem_cons_of_mem _ hy, hyl⟩
      | some t =>
        simp only [hlast] at h
        by_cases hmem : t ∈ acc
        · rw [if_pos hmem] at h
          rcases ih _ h with h | ⟨y, hy, hyl⟩
          · exact Or.inl h
          · exact Or.inr ⟨y, List.mem_cons_of_mem _ hy, hyl⟩
        · rw [if_neg hmem] at h
          rcases ih _ h with h | ⟨y, hy, hyl⟩
          · rcases List.mem_append.mp h with h | h
            · exact Or.inl h
            · simp only [List.mem_singleton] at h
              subst h
              exact Or.inr ⟨x, List.mem_cons_self _ _, hlast⟩
          · exact Or.inr ⟨y, List.mem_cons_of_mem _ hy, hyl⟩
    · rw [if_neg hcond] at h
      rcases ih _ h with h | ⟨y, hy, hyl⟩
      · exact Or.inl h
      · exact Or.inr ⟨y, List.mem_cons_of_mem _ hy, hyl⟩

lemma beam_step_length (blank_idx beam_size V : ℕ) (len_penalty : ℝ)
    (beam : List CTCBeamEntry) (lprobs : ℕ → ℝ) (b' : List CTCBeamEntry)
    (h : beam_step blank_idx beam_size V len_penalty beam lprobs = some b') :
    b'.length ≤ beam_size := by
  rw [beam_step] at h
  cases hext : extend_all lprobs V blank_idx beam_size beam beam with
  | none => rw [hext] at h; cases h
  | some nb =>
    rw [hext] at h
    simp only [Option.some.injEq] at h
    rw [← h]
    exact (List.length_take_le _ _)

lemma beam_step_nodup (blank_idx beam_size V : ℕ) (len_penalty : ℝ)
    (beam : List CTCBeamEntry) (lprobs : ℕ → ℝ) (b' : List CTCBeamEntry)
    (h : beam_step blank_idx beam_size V len_penalty beam lprobs = some b') :
    (b'.map CTCBeamEntry.pref).Nodup := by
  rw [beam_step] at h
  cases hext : extend_all lprobs V blank_idx beam_size beam beam with
  | none => rw [hext] at h; cases h
  | some nb =>
    rw [hext] at h
    simp only [Option.some.injEq] at h
    have hdedup : ((deduplicate nb).map CTCBeamEntry.pref).Nodup := by
      rw [dedup_map_pref]
      exact ordered_keys_nodup nb
    have hperm : (List.insertionSort
        (fun a b => penalty_aware_score len_penalty b ≤ penalty_aware_score len_penalty a)
        (deduplicate nb)).Perm (deduplicate nb) :=
      List.perm_insertionSort _ _
    have hsortnd : ((List.insertionSort
        (fun a b => penalty_aware_score len_penalty b ≤ penalty_aware_score len_penalty a)
        (deduplicate nb)).map CTCBeamEntry.pref).Nodup :=
      ((hperm.map CTCBeamEntry.pref).nodup_iff).mpr hdedup
    rw [← h]
    exact hsortnd.sublist ((List.take_sublist _ _).map CTCBeamEntry.pref)

lemma beam_step_sorted (blank_idx beam_size V : ℕ) (len_penalty : ℝ)
    (beam : List CTCBeamEntry) (lprobs : ℕ → ℝ) (b' : List CTCBeamEntry)
    (h : beam_step blank_idx beam_size V len_penalty beam lprobs = some b') :
    b'.Pairwise
      (fun a b => penalty_aware_score len_penalty b ≤ penalty_aware_score len_penalty a) := by
  rw [beam_step] at h
  cases hext : extend_all lprobs V blank_idx beam_size beam beam with
  | none => rw [hext] at h; cases h
  | some nb =>
    rw [hext] at h
    simp only [Option.some.injEq] at h
    haveI ht : IsTotal CTCBeamEntry
        (fun a b => penalty_aware_score len_penalty b ≤ penalty_aware_score len_penalty a) :=
      ⟨fun a b => le_total _ _⟩
    haveI htr : IsTrans CTCBeamEntry
        (fun a b => penalty_aware_score len_penalty b ≤ penalty_aware_score len_penalty a) :=
      ⟨fun _ _ _ h1 h2 => le_trans h2 h1⟩
    have hsorted := List.sorted_insertionSort
      (fun a b => penalty_aware_score len_penalty b ≤ penalty_aware_score len_penalty a)
      (deduplicate nb)
    rw [← h]
    exact hsorted.sublist (List.take_sublist _ _)

lemma beam_step_blank_free (blank_idx beam_size V : ℕ) (len_penalty : ℝ)
    (beam : List CTCBeamEntry) (lprobs : ℕ → ℝ) (b' : List CTCBeamEntry)
    (hbeam : ∀ e ∈ beam, blank_idx ∉ e.pref)
    (h : beam_step blank_idx beam_size V len_penalty beam lprobs = some b') :
    ∀ e ∈ b', blank_idx ∉ e.pref := by
  rw [beam_step] at h
  cases hext : extend_all lprobs V blank_idx beam_size beam beam with
  | none => rw [hext] at h; cases h
  | some nb =>
    rw [hext] at h
    simp only [Option.some.injEq] at h
    -- every entry of the extended list is blank-free
    have hnb : ∀ x ∈ nb, blank_idx ∉ x.pref := by
      intro x hx
      obtain ⟨e, he, res, hres, hxres⟩ :=
        extend_all_mem lprobs V blank_idx beam_size beam beam nb hext x hx
      obtain ⟨extra, hresal, hextra⟩ :=
        add_next_shape e lprobs V _ blank_idx beam_size res hres
      rw [hresal] at hxres
      rcases List.mem_cons.mp hxres with rfl | hxx
      · exact hbeam e he
      · obtain ⟨c, rfl, hcase⟩ := hextra x hxx
        rw [mk_new]
        simp only [List.mem_append, List.mem_singleton]
        rintro (hmem | rfl)
        · exact hbeam e he hmem
        · rcases hcase with hskip | htbc
          · exact hskip (Or.inl rfl)
          · obtain ⟨y, hy, hyl⟩ := tokens_to_consider_mem beam e _ htbc
            exact hbeam y hy (List.mem_of_mem_getLast? (Option.mem_def.mpr hyl))
    -- entries after dedup / sort / take keep prefixes of the extended list
    intro e he
    rw [← h] at he
    have hsortmem : e ∈ List.insertionSort
        (fun a b => penalty_aware_score len_penalty b ≤ penalty_aware_score len_penalty a)
        (deduplicate nb) := (List.take_sublist _ _).mem he
    have hdedmem : e ∈ deduplicate nb :=
      (List.perm_insertionSort _ _).mem_iff.mp hsortmem
    have hkey : e.pref ∈ nb.map CTCBeamEntry.pref := by
      have : e.pref ∈ (deduplicate nb).map CTCBeamEntry.pref :=
        List.mem_map_of_mem _ hdedmem
      rw [dedup_map_pref] at this
      exact (ordered_keys_mem nb e.pref).mp this
    obtain ⟨y, hy, hyp⟩ := List.mem_map.mp hkey
    rw [← hyp]
    exact hnb y hy

/-- The invariant-preservation principle for the time-step loop. -/
lemma run_steps_invariant (blank_idx beam_size V : ℕ) (len_penalty : ℝ)
    (P : List CTCBeamEntry → Prop)
    (hstep : ∀ beam f b', P beam →
      beam_step blank_idx beam_size V len_penalty beam f = some b' → P b') :
    ∀ frames beam b', P beam →
      run_steps blank_idx beam_size V len_penalty beam frames = some b' → P b' := by
  intro frames
  induction frames with
  | nil =>
    intro beam b' hP h
    rw [run_steps] at h
    cases h
    exact hP
  | cons f fs ih =>
    intro beam b' hP h
    rw [run_steps] at h
    cases hs : beam_step blank_idx beam_size V len_penalty beam f with
    | none => rw [hs] at h; cases h
    | some beam1 =>
      rw [hs] at h
      exact ih beam1 b' (hstep beam f beam1 hP hs) h

/-- Every returned item of `beam_search` is the result of `beam_search_item`
on that item's valid frames. -/
lemma beam_search_mem (blank_idx beam_size V : ℕ) (len_penalty : ℝ)
    (prob_ctc : ℕ → ℕ → ℕ → ℝ) (B : ℕ) (ctc_lengths : ℕ → ℕ)
    (outs : List (List CTCHypo))
    (h : beam_search blank_idx beam_size V len_penalty prob_ctc B ctc_lengths =
      some outs) :
    ∀ item ∈ outs, ∃ b ∈ List.range B,
      beam_search_item blank_idx beam_size V len_penalty
        ((List.range (ctc_lengths b)).map (prob_ctc b)) = some item := by
  rw [beam_search] at h
  suffices haux : ∀ l : List ℕ, ∀ outs : List (List CTCHypo),
      l.foldr (fun b acc =>
        match beam_search_item blank_idx beam_size V len_penalty
            ((List.range (ctc_lengths b)).map (prob_ctc b)), acc with
        | some item, some items => some (item :: items)
        | _, _ => none) (some []) = some outs →
      ∀ item ∈ outs, ∃ b ∈ l,
        beam_search_item blank_idx beam_size V len_penalty
          ((List.range (ctc_lengths b)).map (prob_ctc b)) = some item by
    exact haux (List.range B) outs h
  intro l
  induction l with
  | nil =>
    intro outs h item hitem
    simp only [List.foldr_nil, Option.some.injEq] at h
    rw [← h] at hitem
    cases hitem
  | cons b bs ih =>
    intro outs h item hitem
    simp only [List.foldr_cons] at h
    cases hb : beam_search_item blank_idx beam_size V len_penalty
        ((List.range (ctc_lengths b)).map (prob_ctc b)) with
    | none => rw [hb] at h; cases h
    | some item0 =>
      rw [hb] at h
      cases hbs : bs.foldr (fun b acc =>
          match beam_search_item blank_idx beam_size V len_penalty
              ((List.range (ctc_lengths b)).map (prob_ctc b)), acc with
          | some item, some items => some (item :: items)
          | _, _ => none) (some []) with
      | none => rw [hbs] at h; cases h
      | some items =>
        rw [hbs] at h
        simp only [Option.some.injEq] at h
        rw [← h] at hitem
        rcases List.mem_cons.mp hitem with rfl | hitem
        · exact ⟨b, List.mem_cons_self _ _, hb⟩
        · obtain ⟨b', hb', hres⟩ := ih items hbs item hitem
          exact ⟨b', List.mem_cons_of_mem _ hb', hres⟩

/-! ### `CTCGenerator.best_path_decoding`

Greedy decoding: softmax the scores, take the per-frame arg-max, collapse
consecutive repeats (`itertools.groupby`), drop blanks.  The Python
function builds `batch_predicted` but contains **no return statement**, so
it returns `None`; the model keeps both the built value
(`best_path_batch`) and the actual return value (`none`). -/

/-- One entry of `batch_predicted` (`attention`/`alignment` are always
`None`): the predicted tokens and the product-of-max-probabilities score. -/
structure BPHypo where
  tokens : List ℕ
  score : ℝ

/-- `F.softmax(prob_ctc, dim=-1)` on one frame over vocabulary size `D`. -/
noncomputable def softmax_frame (D : ℕ) (v : ℕ → ℝ) : ℕ → ℝ :=
  fun i => Real.exp (v i) / ∑ j ∈ Finset.range D, Real.exp (v j)

/-- The arg-max index of one frame (`.max(-1)` index, first index on ties). -/
noncomputable def frame_argmax (v : ℕ → ℝ) (D : ℕ) : ℕ :=
  (argmaxList v (List.range D)).getD 0

/-- The max value of one frame (`.max(-1)` value). -/
noncomputable def frame_max (v : ℕ → ℝ) (D : ℕ) : ℝ :=
  v (frame_argmax v D)

/-- `[p[0] for p in groupby(l)]`: collapse consecutive equal elements. -/
def group_heads : List ℕ → List ℕ
  | [] => []
  | a :: rest =>
    match rest with
    | [] => [a]
    | b :: _ => if a = b then group_heads rest else a :: group_heads rest

/-- The dict appended to `batch_predicted` for one batch item, from its
valid frames. -/
noncomputable def best_path_item (D blank_idx : ℕ) (frames : List (ℕ → ℝ)) :
    BPHypo :=
  let probs := frames.map (fun v => softmax_frame D v)
  { tokens := (group_heads (probs.map (fun v => frame_argmax v D))).filter
      (fun t => t ≠ blank_idx),
    score := (probs.map (fun v => frame_max v D)).prod }

/-- The local variable `batch_predicted` built by `best_path_decoding`. -/
noncomputable def best_path_batch (D blank_idx B : ℕ) (prob_ctc : ℕ → ℕ → ℕ → ℝ)
    (ctc_lengths : ℕ → ℕ) : List BPHypo :=
  (List.range B).map (fun b =>
    best_path_item D blank_idx ((List.range (ctc_lengths b)).map (prob_ctc b)))

/-- `CTCGenerator.best_path_decoding`: the function computes
`batch_predicted` but ends without a `return` statement, so its value is
Python's `None`. -/
noncomputable def best_path_decoding (D blank_idx B : ℕ) (prob_ctc : ℕ → ℕ → ℕ → ℝ)
    (ctc_lengths : ℕ → ℕ) : Option (List BPHypo) :=
  let _batch_predicted := best_path_batch D blank_idx B prob_ctc ctc_lengths
  none

/-- The softmax does not change arg-max selections (the denominator is
shared and positive, the exponential is strictly monotone). -/
lemma argmaxList_softmax (D : ℕ) (hD : 0 < D) (v : ℕ → ℝ) :
    ∀ l : List ℕ, argmaxList (softmax_frame D v) l = argmaxList v l := by
  have hsum : 0 < ∑ j ∈ Finset.range D, Real.exp (v j) :=
    Finset.sum_pos (fun i _ => Real.exp_pos _) ⟨0, Finset.mem_range.mpr hD⟩
  have hiff : ∀ m a : ℕ, (softmax_frame D v m > softmax_frame D v a ↔ v m > v a) := by
    intro m a
    unfold softmax_frame
    rw [gt_iff_lt, div_lt_div_iff_of_pos_right hsum, Real.exp_lt_exp]
  intro l
  induction l with
  | nil => rfl
  | cons a rest ih =>
    rw [argmaxList, argmaxList, ih]
    cases argmaxList v rest with
    | none => rfl
    | some m =>
      show (if softmax_frame D v m > softmax_frame D v a then some m else some a) =
        (if v m > v a then some m else some a)
      by_cases h : v m > v a
      · rw [if_pos ((hiff m a).mpr h), if_pos h]
      · rw [if_neg (fun hc => h ((hiff m a).mp hc)), if_neg h]

lemma frame_argmax_softmax (D : ℕ) (hD : 0 < D) (v : ℕ → ℝ) :
    frame_argmax (softmax_frame D v) D = frame_argmax v D := by
  rw [frame_argmax, frame_argmax, argmaxList_softmax D hD v]

/-! ### Concrete example inputs -/

/-- Example log-probability row: `lprobs = [0, -1, -2, ...]`
(strictly decreasing in the index). -/
noncomputable def exLprobs : ℕ → ℝ := fun i => -(i : ℝ)

lemma argmax_ex2 : argmaxList exLprobs [2] = some 2 := by
  rw [argmaxList, argmaxList]

lemma argmax_ex12 : argmaxList exLprobs [1, 2] = some 1 := by
  rw [argmaxList, argmax_ex2]
  show (if exLprobs 2 > exLprobs 1 then some 2 else some 1) = some 1
  rw [if_neg]
  norm_num [exLprobs]

lemma argmax_ex012 : argmaxList exLprobs [0, 1, 2] = some 0 := by
  rw [argmaxList, argmax_ex12]
  show (if exLprobs 1 > exLprobs 0 then some 1 else some 0) = some 0
  rw [if_neg]
  norm_num [exLprobs]

lemma topk_ex : topk exLprobs 3 3 = [0, 1, 2] := by
  have hr : List.range 3 = [0, 1, 2] := rfl
  rw [topk, hr, show (3 : ℕ) = 2 + 1 from rfl, topkAux, argmax_ex012]
  show 0 :: topkAux exLprobs 2 ([0, 1, 2].erase 0) = [0, 1, 2]
  have he0 : [0, 1, 2].erase 0 = [1, 2] := rfl
  rw [he0, show (2 : ℕ) = 1 + 1 from rfl, topkAux, argmax_ex12]
  show 0 :: 1 :: topkAux exLprobs 1 ([1, 2].erase 1) = [0, 1, 2]
  have he1 : [1, 2].erase 1 = [2] := rfl
  rw [he1, show (1 : ℕ) = 0 + 1 from rfl, topkAux, argmax_ex2]
  rfl

/-- Example frame with a single high logit at index `t`. -/
noncomputable def frEx (t : ℕ) : ℕ → ℝ := fun i => if i = t then 1 else 0

lemma argmax_frEx0 : argmaxList (frEx 0) [0, 1, 2] = some 0 := by
  rw [argmaxList, argmaxList, argmaxList, argmaxList]
  show (match (if frEx 0 2 > frEx 0 1 then some 2 else some 1 : Option ℕ) with
    | none => some 0
    | some m => if frEx 0 m > frEx 0 0 then some m else some 0) = some 0
  rw [if_neg (by norm_num [frEx])]
  show (if frEx 0 1 > frEx 0 0 then some 1 else some 0) = some 0
  rw [if_neg (by norm_num [frEx])]

lemma argmax_frEx1 : argmaxList (frEx 1) [0, 1, 2] = some 1 := by
  rw [argmaxList, argmaxList, argmaxList, argmaxList]
  show (match (if frEx 1 2 > frEx 1 1 then some 2 else some 1 : Option ℕ) with
    | none => some 0
    | some m => if frEx 1 m > frEx 1 0 then some m else some 0) = some 1
  rw [if_neg (by norm_num [frEx])]
  show (if frEx 1 1 > frEx 1 0 then some 1 else some 0) = some 1
  rw [if_pos (by norm_num [frEx])]

lemma argmax_frEx2 : argmaxList (frEx 2) [0, 1, 2] = some 2 := by
  rw [argmaxList, argmaxList, argmaxList, argmaxList]
  show (match (if frEx 2 2 > frEx 2 1 then some 2 else some 1 : Option ℕ) with
    | none => some 0
    | some m => if frEx 2 m > frEx 2 0 then some m else some 0) = some 2
  rw [if_pos (by norm_num [frEx])]
  show (if frEx 2 2 > frEx 2 0 then some 2 else some 0) = some 2
  rw [if_pos (by norm_num [frEx])]

lemma frame_argmax_softmax_frEx (t : ℕ) (ht : t < 3) :
    frame_argmax (softmax_frame 3 (frEx t)) 3 = t := by
  rw [frame_argmax_softmax 3 (by norm_num) (frEx t), frame_argmax]
  have hr : List.range 3 = [0, 1, 2] := rfl
  rw [hr]
  interval_cases t
  · rw [argmax_frEx0]; rfl
  · rw [argmax_frEx1]; rfl
  · rw [argmax_frEx2]; rfl

/-- The 7-frame single-item input whose frame-level arg-max sequence is
`[a, a, blank, b, b, b, blank]` with `blank = 0`, `a = 1`, `b = 2`. -/
noncomputable def exFrames : List (ℕ → ℝ) :=
  [frEx 1, frEx 1, frEx 0, frEx 2, frEx 2, frEx 2, frEx 0]

/-- The corresponding batch tensor (`B = 1`, `T = 7`, `D = 3`). -/
noncomputable def exProbC4 : ℕ → ℕ → ℕ → ℝ :=
  fun _ n => exFrames.getD n (frEx 0)

/-! ## Claim theorems -/

/-- **C1**: for every `CTCBeamEntry` and log-probability vector, a successful
`add_next` call returns exactly one entry keeping the prefix unchanged — the
head of the list — whose `non_blank_end_logprob` is the old
`non_blank_end_logprob` plus the log-probability of the last prefix symbol
and whose `blank_end_logprob` is the old total `logprob` plus the
log-probability of blank; an empty prefix uses the blank index as the
"last symbol". -/
theorem add_next_same_pref_successor (e : CTCBeamEntry) (lprobs : ℕ → ℝ) (V : ℕ)
    (tbc : List ℕ) (blank_idx beam_size : ℕ) (res : List CTCBeamEntry)
    (h : e.add_next lprobs V tbc blank_idx beam_size = some res) :
    res.countP (fun x => x.pref = e.pref) = 1 ∧
    res.head? = some ⟨e.pref,
      e.non_blank_end_logprob + ((lprobs (e.last_idx blank_idx) : ℝ) : EReal),
      e.logprob + ((lprobs blank_idx : ℝ) : EReal)⟩ ∧
    (e.pref = [] → e.last_idx blank_idx = blank_idx) := by
  obtain ⟨extra, rfl, hextra⟩ :=
    add_next_shape e lprobs V tbc blank_idx beam_size res h
  refine ⟨?_, rfl, ?_⟩
  · rw [List.countP_cons_of_pos _ _ (by simp [same_pref_entry])]
    rw [List.countP_eq_zero.mpr]
    intro x hx
    obtain ⟨c, rfl, -⟩ := hextra x hx
    simp [mk_new]
  · intro h0
    simp [CTCBeamEntry.last_idx, h0]

theorem add_next_same_pref_successor_witness :
    ([same_pref_entry init_entry (fun _ => (0 : ℝ)) 0].countP
        (fun x => x.pref = init_entry.pref) = 1) ∧
    ([same_pref_entry init_entry (fun _ => (0 : ℝ)) 0].head? =
      some ⟨init_entry.pref,
        init_entry.non_blank_end_logprob + (((0 : ℝ)) : EReal),
        init_entry.logprob + (((0 : ℝ)) : EReal)⟩) ∧
    (init_entry.pref = [] → init_entry.last_idx 0 = 0) :=
  add_next_same_pref_successor init_entry (fun _ => (0 : ℝ)) 1 [] 0 0
    [same_pref_entry init_entry (fun _ => (0 : ℝ)) 0] rfl

/-- **C2, counterexample**: with vocabulary `{0, 1, 2}` (`blank = 0`),
`beam_size = 1`, empty prefix and `lprobs i = -i`, the top `beam_size + 2`
symbols are `[0, 1, 2]`; symbol `2` is neither blank nor the last symbol,
yet no successor with prefix `[2]` is produced — the new-symbol successors
stop after `beam_size = 1` of them, refuting "one successor for each of the
top `k + 2` symbols (excluding blank and the last symbol)". -/
theorem add_next_topk_cutoff_cex :
    (init_entry.add_next exLprobs 3 [] 0 1).map (fun l => l.map CTCBeamEntry.pref) =
      some [[], [1]] ∧
    2 ∈ topk exLprobs 3 (1 + 2) ∧
    ¬((2 : ℕ) = 0 ∨ (2 : ℕ) = init_entry.last_idx 0) := by
  have h3 : (1 : ℕ) + 2 = 3 := rfl
  have hlast : init_entry.last_idx 0 = 0 := rfl
  have hfilter : (topk exLprobs 3 3).filter
      (fun c => ¬(c = 0 ∨ c = init_entry.last_idx 0)) = [1, 2] := by
    rw [topk_ex, hlast]
    rfl
  refine ⟨?_, ?_, ?_⟩
  · rw [add_next_eq init_entry exLprobs 3 [] 0 1 (by simp)
      (by rw [h3, hfilter]; norm_num)]
    rw [Option.map_some']
    simp only [Option.some.injEq]
    rw [h3, hfilter]
    simp [same_pref_entry, mk_new, init_entry]
  · rw [h3, topk_ex]
    simp
  · rw [hlast]
    simp

/-- **C2, amended**: a successful `add_next` call returns the same-prefix
successor followed by one new-symbol successor for each of the **first
`beam_size`** symbols of the top `beam_size + 2` list after removing blank
and the current last symbol (in top-k order), plus one for each token of
`tokens_to_be_considered` not already among those; every new-symbol
successor has the symbol appended to the prefix, `non_blank_end_logprob`
equal to the old total `logprob` plus the symbol's log-probability, and
`blank_end_logprob = -inf` (see `mk_new`). -/
theorem add_next_successors_characterization (e : CTCBeamEntry) (lprobs : ℕ → ℝ)
    (V : ℕ) (tbc : List ℕ) (blank_idx beam_size : ℕ) (hnd : tbc.Nodup)
    (hlen : beam_size ≤
      ((topk lprobs V (beam_size + 2)).filter
        (fun c => ¬(c = blank_idx ∨ c = e.last_idx blank_idx))).length) :
    e.add_next lprobs V tbc blank_idx beam_size =
      some (same_pref_entry e lprobs blank_idx ::
        ((((topk lprobs V (beam_size + 2)).filter
            (fun c => ¬(c = blank_idx ∨ c = e.last_idx blank_idx))).take beam_size) ++
          tbc.filter (fun t =>
            t ∉ (((topk lprobs V (beam_size + 2)).filter
              (fun c => ¬(c = blank_idx ∨ c = e.last_idx blank_idx))).take beam_size))).map
          (mk_new lprobs e.pref e.logprob)) :=
  add_next_eq e lprobs V tbc blank_idx beam_size hnd hlen

theorem add_next_successors_characterization_witness :
    init_entry.add_next exLprobs 3 [] 0 1 =
      some (same_pref_entry init_entry exLprobs 0 ::
        ((((topk exLprobs 3 (1 + 2)).filter
            (fun c => ¬(c = 0 ∨ c = init_entry.last_idx 0))).take 1) ++
          ([] : List ℕ).filter (fun t =>
            t ∉ (((topk exLprobs 3 (1 + 2)).filter
              (fun c => ¬(c = 0 ∨ c = init_entry.last_idx 0))).take 1))).map
          (mk_new exLprobs init_entry.pref init_entry.logprob)) :=
  add_next_successors_characterization init_entry exLprobs 3 [] 0 1 (by simp)
    (by rw [show (1 : ℕ) + 2 = 3 from rfl,
          show (topk exLprobs 3 3).filter
            (fun c => ¬(c = 0 ∨ c = init_entry.last_idx 0)) = [1, 2] by
            rw [topk_ex]; rfl]
        norm_num)

/-- **C10**: whenever the log-probability vector has at least
`beam_size + 2` entries, the scan over the fetched top `beam_size + 2`
indices never reads past their end — the call succeeds (in the model, an
out-of-bounds read is `none`). -/
theorem add_next_topk_scan_in_bounds (e : CTCBeamEntry) (lprobs : ℕ → ℝ) (V : ℕ)
    (tbc : List ℕ) (blank_idx beam_size : ℕ) (hV : beam_size + 2 ≤ V) :
    (e.add_next lprobs V tbc blank_idx beam_size).isSome = true :=
  add_next_isSome e lprobs V tbc blank_idx beam_size hV

theorem add_next_topk_scan_in_bounds_witness :
    (0 : ℕ) + 2 ≤ 2 ∧
    (init_entry.add_next (fun _ => (0 : ℝ)) 2 [] 0 0).isSome = true :=
  ⟨by norm_num,
    add_next_topk_scan_in_bounds init_entry (fun _ => (0 : ℝ)) 2 [] 0 0 (by norm_num)⟩

/-- Example beam entry used in concrete instantiations. -/
noncomputable def exEntry : CTCBeamEntry := ⟨[1], ⊥, (0 : EReal)⟩

/-- **C3**: `deduplicate` returns exactly one entry per distinct prefix
(duplicate-free prefixes, same set of prefixes as the input), and each
output entry's `non_blank_end_logprob` / `blank_end_logprob` is the
log-sum-exp of the corresponding values over all input entries with that
prefix. -/
theorem deduplicate_merges_by_logsumexp (l : List CTCBeamEntry) :
    ((deduplicate l).map CTCBeamEntry.pref).Nodup ∧
    (∀ p : List ℕ,
      p ∈ (deduplicate l).map CTCBeamEntry.pref ↔ p ∈ l.map CTCBeamEntry.pref) ∧
    (∀ e ∈ deduplicate l,
      e.non_blank_end_logprob =
        logsumexp ((l.filter (fun x => x.pref = e.pref)).map
          CTCBeamEntry.non_blank_end_logprob) ∧
      e.blank_end_logprob =
        logsumexp ((l.filter (fun x => x.pref = e.pref)).map
          CTCBeamEntry.blank_end_logprob)) := by
  refine ⟨?_, ?_, ?_⟩
  · rw [dedup_map_pref]
    exact ordered_keys_nodup l
  · intro p
    rw [dedup_map_pref]
    exact ordered_keys_mem l p
  · intro e he
    exact dedup_mem_fields l e he

theorem deduplicate_merges_by_logsumexp_witness :
    exEntry.non_blank_end_logprob =
      logsumexp (([exEntry].filter (fun x => x.pref = exEntry.pref)).map
        CTCBeamEntry.non_blank_end_logprob) ∧
    exEntry.blank_end_logprob =
      logsumexp (([exEntry].filter (fun x => x.pref = exEntry.pref)).map
        CTCBeamEntry.blank_end_logprob) :=
  (deduplicate_merges_by_logsumexp [exEntry]).2.2 exEntry
    (by rw [show deduplicate [exEntry] = [exEntry] from rfl]
        exact List.mem_singleton_self _)

/-- **C4** (code bug): on the single-item input whose frame-level arg-max
sequence is `[a, a, blank, b, b, b, blank]` (`blank = 0`, `a = 1`,
`b = 2`), the intended `batch_predicted` value indeed collapses to the
token sequence `[a, b] = [1, 2]` — but `best_path_decoding` itself has no
`return` statement and returns `None` instead of that value. -/
theorem best_path_decoding_returns_none_bug :
    best_path_decoding 3 0 1 exProbC4 (fun _ => 7) = none ∧
    exFrames.map (fun v => frame_argmax (softmax_frame 3 v) 3) =
      [1, 1, 0, 2, 2, 2, 0] ∧
    (best_path_batch 3 0 1 exProbC4 (fun _ => 7)).map BPHypo.tokens = [[1, 2]] := by
  have hamax : exFrames.map (fun v => frame_argmax (softmax_frame 3 v) 3) =
      [1, 1, 0, 2, 2, 2, 0] := by
    rw [exFrames]
    simp only [List.map_cons, List.map_nil,
      frame_argmax_softmax_frEx 0 (by norm_num),
      frame_argmax_softmax_frEx 1 (by norm_num),
      frame_argmax_softmax_frEx 2 (by norm_num)]
  refine ⟨rfl, hamax, ?_⟩
  rw [best_path_batch, show List.range 1 = [0] from rfl]
  simp only [List.map_cons, List.map_nil]
  rw [show (List.range ((fun _ : ℕ => 7) 0)).map (exProbC4 0) = exFrames from rfl]
  rw [best_path_item]
  simp only [List.map_map]
  rw [show (exFrames.map ((fun v => frame_argmax v 3) ∘ fun v => softmax_frame 3 v)) =
    exFrames.map (fun v => frame_argmax (softmax_frame 3 v) 3) from rfl, hamax]
  rfl

/-- **C5**: with a positive beam width, `beam_search` returns at most
`beam_size` hypotheses per batch item and no two hypotheses of one item
share the same token sequence. -/
theorem beam_search_width_and_unique (blank_idx beam_size V : ℕ) (len_penalty : ℝ)
    (prob_ctc : ℕ → ℕ → ℕ → ℝ) (B : ℕ) (ctc_lengths : ℕ → ℕ)
    (outs : List (List CTCHypo)) (hk : 1 ≤ beam_size)
    (h : beam_search blank_idx beam_size V len_penalty prob_ctc B ctc_lengths =
      some outs) :
    ∀ item ∈ outs, item.length ≤ beam_size ∧ (item.map CTCHypo.tokens).Nodup := by
  intro item hitem
  obtain ⟨b, -, hb⟩ := beam_search_mem blank_idx beam_size V len_penalty
    prob_ctc B ctc_lengths outs h item hitem
  rw [beam_search_item] at hb
  cases hrun : run_steps blank_idx beam_size V len_penalty [init_entry]
      ((List.range (ctc_lengths b)).map (prob_ctc b)) with
  | none => rw [hrun] at hb; cases hb
  | some beam =>
    rw [hrun] at hb
    simp only [Option.some.injEq] at hb
    have hinv := run_steps_invariant blank_idx beam_size V len_penalty
      (fun bm => bm.length ≤ beam_size ∧ (bm.map CTCBeamEntry.pref).Nodup)
      (fun beam f b' _ hs =>
        ⟨beam_step_length blank_idx beam_size V len_penalty beam f b' hs,
          beam_step_nodup blank_idx beam_size V len_penalty beam f b' hs⟩)
      ((List.range (ctc_lengths b)).map (prob_ctc b)) [init_entry] beam
      ⟨by simpa using hk, by simp⟩ hrun
    constructor
    · rw [← hb]
      simpa using hinv.1
    · rw [← hb]
      have hmm : ((beam.map (fun e =>
          (⟨e.pref, penalty_aware_score len_penalty e⟩ : CTCHypo))).map
            CTCHypo.tokens) = beam.map CTCBeamEntry.pref := by
        rw [List.map_map]
        rfl
      rw [hmm]
      exact hinv.2

theorem beam_search_width_and_unique_witness :
    1 ≤ 1 ∧
    ([(⟨[], penalty_aware_score 0 init_entry⟩ : CTCHypo)].length ≤ 1 ∧
      (([(⟨[], penalty_aware_score 0 init_entry⟩ : CTCHypo)]).map
        CTCHypo.tokens).Nodup) :=
  ⟨le_refl 1,
    beam_search_width_and_unique 0 1 1 0 (fun _ _ _ => 0) 1 (fun _ => 0)
      [[⟨[], penalty_aware_score 0 init_entry⟩]] (le_refl 1) rfl
      [⟨[], penalty_aware_score 0 init_entry⟩] (List.mem_singleton_self _)⟩

/-- **C6**: every hypothesis list returned by `beam_search` is sorted in
descending order of its `score` field, and the score used is the raw
`logprob` when `len_penalty = 0` and the length-normalized log-probability
otherwise. -/
theorem beam_search_sorted_desc (blank_idx beam_size V : ℕ) (len_penalty : ℝ)
    (prob_ctc : ℕ → ℕ → ℕ → ℝ) (B : ℕ) (ctc_lengths : ℕ → ℕ)
    (outs : List (List CTCHypo))
    (h : beam_search blank_idx beam_size V len_penalty prob_ctc B ctc_lengths =
      some outs) :
    (∀ item ∈ outs, item.Pairwise (fun h1 h2 => h2.score ≤ h1.score)) ∧
    (∀ e : CTCBeamEntry, penalty_aware_score len_penalty e =
      if len_penalty = 0 then e.logprob else e.normalized_logprob len_penalty) := by
  refine ⟨?_, fun e => rfl⟩
  intro item hitem
  obtain ⟨b, -, hb⟩ := beam_search_mem blank_idx beam_size V len_penalty
    prob_ctc B ctc_lengths outs h item hitem
  rw [beam_search_item] at hb
  cases hrun : run_steps blank_idx beam_size V len_penalty [init_entry]
      ((List.range (ctc_lengths b)).map (prob_ctc b)) with
  | none => rw [hrun] at hb; cases hb
  | some beam =>
    rw [hrun] at hb
    simp only [Option.some.injEq] at hb
    have hinv := run_steps_invariant blank_idx beam_size V len_penalty
      (fun bm => bm.Pairwise (fun a b =>
        penalty_aware_score len_penalty b ≤ penalty_aware_score len_penalty a))
      (fun beam f b' _ hs =>
        beam_step_sorted blank_idx beam_size V len_penalty beam f b' hs)
      ((List.range (ctc_lengths b)).map (prob_ctc b)) [init_entry] beam
      (List.pairwise_singleton _ _) hrun
    rw [← hb, List.pairwise_map]
    exact hinv

theorem beam_search_sorted_desc_witness :
    ([(⟨[], penalty_aware_score 0 init_entry⟩ : CTCHypo)]).Pairwise
      (fun h1 h2 => h2.score ≤ h1.score) :=
  (beam_search_sorted_desc 0 1 1 0 (fun _ _ _ => 0) 1 (fun _ => 0)
      [[⟨[], penalty_aware_score 0 init_entry⟩]] rfl).1
    [⟨[], penalty_aware_score 0 init_entry⟩] (List.mem_singleton_self _)

/-- **C7**: in every reachable beam of `beam_search` — the initial beam and
the beam after any sequence of time steps (`frames` ranges over every
prefix of the valid frames) — no entry's prefix contains the blank index. -/
theorem beam_reachable_blank_free (blank_idx beam_size V : ℕ) (len_penalty : ℝ)
    (frames : List (ℕ → ℝ)) (beam : List CTCBeamEntry)
    (h : run_steps blank_idx beam_size V len_penalty [init_entry] frames =
      some beam) :
    ∀ e ∈ beam, blank_idx ∉ e.pref :=
  run_steps_invariant blank_idx beam_size V len_penalty
    (fun bm => ∀ e ∈ bm, blank_idx ∉ e.pref)
    (fun beam f b' hP hs =>
      beam_step_blank_free blank_idx beam_size V len_penalty beam f b' hP hs)
    frames [init_entry] beam (by simp [init_entry]) h

theorem beam_reachable_blank_free_witness : (0 : ℕ) ∉ init_entry.pref :=
  beam_reachable_blank_free 0 1 1 0 [] [init_entry] rfl init_entry
    (List.mem_singleton_self _)

/-- **C8**: a batch item with valid length zero performs zero extension
steps and yields the single hypothesis with empty token sequence whose
score is the (well-defined) penalty-aware score of the initial entry —
the entry with empty prefix, `non_blank_end_logprob = -inf` and
`blank_end_logprob = 0`, whose total `logprob` is `0`. -/
theorem beam_search_zero_length (blank_idx beam_size V : ℕ) (len_penalty : ℝ)
    (prob_ctc : ℕ → ℕ → ℕ → ℝ) (ctc_lengths : ℕ → ℕ) (b : ℕ)
    (h0 : ctc_lengths b = 0) :
    beam_search_item blank_idx beam_size V len_penalty
      ((List.range (ctc_lengths b)).map (prob_ctc b)) =
      some [⟨[], penalty_aware_score len_penalty init_entry⟩] ∧
    init_entry.pref = [] ∧
    init_entry.non_blank_end_logprob = ⊥ ∧
    init_entry.blank_end_logprob = 0 ∧
    init_entry.logprob = 0 := by
  refine ⟨?_, rfl, rfl, rfl, ?_⟩
  · rw [h0]
    rfl
  · show (CTCBeamEntry.mk [] ⊥ (0 : EReal)).logprob = 0
    simp [CTCBeamEntry.logprob]

theorem beam_search_zero_length_witness :
    beam_search_item 0 1 1 0 ((List.range ((fun _ : ℕ => 0) 0)).map
        ((fun _ _ _ => (0 : ℝ)) 0)) =
      some [⟨[], penalty_aware_score 0 init_entry⟩] ∧
    init_entry.pref = [] ∧
    init_entry.non_blank_end_logprob = ⊥ ∧
    init_entry.blank_end_logprob = 0 ∧
    init_entry.logprob = 0 :=
  beam_search_zero_length 0 1 1 0 (fun _ _ _ => (0 : ℝ)) (fun _ => 0) 0 rfl

/-! ### Length penalty (claim C9) -/

@[simp] lemma penalty_aware_score_zero (e : CTCBeamEntry) :
    penalty_aware_score 0 e = e.logprob := if_pos rfl

/-- The penalty-aware score at `len_penalty = 1` of an entry with a finite
non-blank mass and no blank-ending mass. -/
lemma penalty_aware_score_one_coe_bot (p : List ℕ) (r : ℝ) :
    penalty_aware_score 1 (CTCBeamEntry.mk p (r : EReal) ⊥) =
      ((r / (1 + p.length) : ℝ) : EReal) := by
  rw [penalty_aware_score, if_neg one_ne_zero, CTCBeamEntry.normalized_logprob]
  simp only [logprob_coe_bot]
  rw [show ((1 + ((CTCBeamEntry.mk p (r : EReal) ⊥).pref.length : ℝ)) ^ (1 : ℝ) : ℝ) =
    (1 + (p.length : ℝ)) from by rw [Real.rpow_one]]
  rw [EReal.coe_div]

/-- The long, low-probability hypothesis of the counterexample:
`logprob = -9`, length 4. -/
noncomputable def exEntryLong : CTCBeamEntry := ⟨[1, 2, 3, 4], ((-9 : ℝ) : EReal), ⊥⟩

/-- The short, higher-probability hypothesis of the counterexample:
`logprob = -4`, length 1. -/
noncomputable def exEntryShort : CTCBeamEntry := ⟨[1], ((-4 : ℝ) : EReal), ⊥⟩

/-- **C9, counterexample**: `exEntryLong` has the longer prefix and the
strictly lower penalty-aware score at `len_penalty = 0`
(`-9 < -4`), yet at `len_penalty = 1` it scores strictly **higher**
(`-9/5 = -1.8 > -2 = -4/2`): increasing the penalty from 0 to 1 raised
the longer hypothesis's rank relative to the shorter one. -/
theorem length_penalty_rank_cex :
    exEntryShort.pref.length < exEntryLong.pref.length ∧
    penalty_aware_score 0 exEntryLong < penalty_aware_score 0 exEntryShort ∧
    penalty_aware_score 1 exEntryShort < penalty_aware_score 1 exEntryLong := by
  refine ⟨by norm_num [exEntryShort, exEntryLong], ?_, ?_⟩
  · rw [penalty_aware_score_zero, penalty_aware_score_zero]
    rw [show exEntryLong.logprob = ((-9 : ℝ) : EReal) from
      logprob_coe_bot [1, 2, 3, 4] (-9)]
    rw [show exEntryShort.logprob = ((-4 : ℝ) : EReal) from
      logprob_coe_bot [1] (-4)]
    exact_mod_cast (by norm_num : (-9 : ℝ) < -4)
  · rw [exEntryShort, exEntryLong,
      penalty_aware_score_one_coe_bot, penalty_aware_score_one_coe_bot]
    exact_mod_cast (by norm_num : ((-4 : ℝ) / (1 + ([1] : List ℕ).length)) <
      ((-9 : ℝ) / (1 + ([1, 2, 3, 4] : List ℕ).length)))

/-- **C9, amended**: for genuine log-probabilities (total `logprob ≤ 0`),
increasing `length_penalty` from 0 to 1 never **lowers** the longer
hypothesis's rank relative to the shorter one: if the longer entry `a`
ranks at or below the shorter entry `b` under the penalty-aware score at
`len_penalty = 1`, it already ranked at or below `b` at
`len_penalty = 0`. -/
theorem length_penalty_rank_monotone (a b : CTCBeamEntry)
    (hlen : b.pref.length ≤ a.pref.length)
    (ha : a.logprob ≤ 0) (hb : b.logprob ≤ 0)
    (h1 : penalty_aware_score 1 a ≤ penalty_aware_score 1 b) :
    penalty_aware_score 0 a ≤ penalty_aware_score 0 b := by
  rw [penalty_aware_score_zero, penalty_aware_score_zero]
  rw [penalty_aware_score, if_neg one_ne_zero, penalty_aware_score,
    if_neg one_ne_zero, CTCBeamEntry.normalized_logprob,
    CTCBeamEntry.normalized_logprob] at h1
  set ca : ℝ := ((1 + (a.pref.length : ℝ)) ^ (1 : ℝ) : ℝ) with hca_def
  set cb : ℝ := ((1 + (b.pref.length : ℝ)) ^ (1 : ℝ) : ℝ) with hcb_def
  have hca : 0 < ca := by
    rw [hca_def, Real.rpow_one]
    positivity
  have hcb : 0 < cb := by
    rw [hcb_def, Real.rpow_one]
    positivity
  have hcba : cb ≤ ca := by
    rw [hca_def, hcb_def, Real.rpow_one, Real.rpow_one]
    have := (Nat.cast_le (α := ℝ)).mpr hlen
    linarith
  by_cases hab : a.logprob = ⊥
  · rw [hab]
    exact bot_le
  by_cases hat : a.logprob = ⊤
  · rw [hat] at ha
    exact absurd (top_le_iff.mp ha).symm (by simp)
  by_cases hbt : b.logprob = ⊤
  · rw [hbt]
    exact le_top
  by_cases hbb : b.logprob = ⊥
  · exfalso
    rw [hbb] at h1
    have hbdiv : (⊥ : EReal) / (cb : EReal) = ⊥ :=
      EReal.bot_div_of_pos_ne_top (by exact_mod_cast hcb) (by simp)
    rw [hbdiv] at h1
    have h1' := le_bot_iff.mp h1
    rw [← EReal.coe_toReal hat hab, ← EReal.coe_div] at h1'
    exact EReal.coe_ne_bot _ h1'
  · -- both finite
    rw [← EReal.coe_toReal hat hab] at h1 ha ⊢
    rw [← EReal.coe_toReal hbt hbb] at h1 hb ⊢
    rw [← EReal.coe_div, ← EReal.coe_div] at h1
    rw [EReal.coe_le_coe_iff] at h1 ⊢
    rw [← EReal.coe_zero, EReal.coe_le_coe_iff] at ha hb
    set ra : ℝ := a.logprob.toReal
    set rb : ℝ := b.logprob.toReal
    have hcross : ra * cb ≤ rb * ca := (div_le_div_iff₀ hca hcb).mp h1
    have hmono : rb * ca ≤ rb * cb := mul_le_mul_of_nonpos_left hcba hb
    have : ra * cb ≤ rb * cb := le_trans hcross hmono
    exact le_of_mul_le_mul_right this hcb

/-- The long entry of the monotonicity witness: `logprob = -4`, length 1. -/
noncomputable def exEntryA : CTCBeamEntry := ⟨[1], ((-4 : ℝ) : EReal), ⊥⟩

/-- The short entry of the monotonicity witness: `logprob = -1`, length 0. -/
noncomputable def exEntryB : CTCBeamEntry := ⟨[], ((-1 : ℝ) : EReal), ⊥⟩

theorem length_penalty_rank_monotone_witness :
    penalty_aware_score 0 exEntryA ≤ penalty_aware_score 0 exEntryB :=
  length_penalty_rank_monotone exEntryA exEntryB
    (by norm_num [exEntryA, exEntryB])
    (by rw [show exEntryA.logprob = ((-4 : ℝ) : EReal) from logprob_coe_bot [1] (-4)]
        exact_mod_cast (by norm_num : (-4 : ℝ) ≤ 0))
    (by rw [show exEntryB.logprob = ((-1 : ℝ) : EReal) from logprob_coe_bot [] (-1)]
        exact_mod_cast (by norm_num : (-1 : ℝ) ≤ 0))
    (by rw [exEntryA, exEntryB,
          penalty_aware_score_one_coe_bot, penalty_aware_score_one_coe_bot]
        exact_mod_cast (by norm_num :
          ((-4 : ℝ) / (1 + ([1] : List ℕ).length)) ≤
            ((-1 : ℝ) / (1 + ([] : List ℕ).length))))
